import Mathlib

/-!
# Verification of the rustdoc document-graph builder and doctest pipeline

A shallow embedding of the core of `steveklabnik/rustdoc`:

* `src/json/api.rs` — the JSON-API document model (`Documentation`, `Document`,
  `Data`, `VecOrData`) and its relationship-insertion operations;
* `src/json/attributes.rs` — the summary extractor;
* `src/json/mod.rs` — `create_documentation`, the definition-tree to
  document-graph builder;
* `src/test.rs` — the doctest extractor's line transformation
  (`find_test_blocks`) and the test-program synthesizer (`preprocess`).

Rust `HashMap`s are modelled as association lists (`alInsert` replaces the
value at an existing key, as `HashMap::insert` does; iteration order of a
`HashMap` is unspecified, and no theorem below depends on entry order).
Rust `String`/`&str` values are modelled as Lean `String` where only whole
values are moved around, and as `List Char` where the code indexes into the
string (the doctest extractor); the inputs involved are ASCII, where Rust's
byte indexing and char indexing agree.
-/

namespace Rustdoc

/-! ## Association lists modelling `std::collections::HashMap` -/

/-- `HashMap::insert`: replace the value at `k` if present, otherwise append. -/
def alInsert {α : Type} (m : List (String × α)) (k : String) (v : α) :
    List (String × α) :=
  match m with
  | [] => [(k, v)]
  | (k', v') :: rest => if k' = k then (k, v) :: rest else (k', v') :: alInsert rest k v

/-- `HashMap::get`: the value at key `k`, if any. -/
def alFind {α : Type} (m : List (String × α)) (k : String) : Option α :=
  match m with
  | [] => none
  | (k', v) :: rest => if k' = k then some v else alFind rest k

/-! ## `src/json/api.rs` -/

/-- `Data` (api.rs): a relationship reference `{ type, id }`. -/
structure Data where
  ty : String
  id : String
deriving DecidableEq, Repr

/-- `VecOrData` (api.rs): a relationship's payload is either plural
(`Vec(Vec<Data>)`) or singular (`Data(Data)`). -/
inductive VecOrData where
  | vec (v : List Data) : VecOrData
  | data (d : Data) : VecOrData
deriving DecidableEq, Repr

/-- `Document` (api.rs): `type`, `id`, string attributes, and an optional
relationships map `relation name ↦ { "data" ↦ VecOrData }`. -/
structure Document where
  ty : String
  id : String
  attributes : List (String × String)
  relationships : Option (List (String × List (String × VecOrData)))
deriving DecidableEq, Repr

/-- `Documentation` (api.rs): the serialized root carrying `data` and `included`. -/
structure Documentation where
  data : Option Document
  included : Option (List Document)
deriving DecidableEq, Repr

/-- `Document::new` -/
def Document.new : Document :=
  { ty := "", id := "", attributes := [], relationships := none }

/-- Builder method `Document::ty` (named `setTy` here because `ty` is the
field projection). -/
def Document.setTy (doc : Document) (t : String) : Document :=
  { doc with ty := t }

/-- Builder method `Document::id`. -/
def Document.setId (doc : Document) (id : String) : Document :=
  { doc with id := id }

/-- Builder method `Document::attributes`: insert one attribute,
overwriting an existing key. -/
def Document.setAttr (doc : Document) (attr value : String) : Document :=
  { doc with attributes := alInsert doc.attributes attr value }

/-- `Document::add_relationship` (api.rs line 210): append `data` to the plural
relationship at key `ty`, creating the entry (with a `"data"` key holding an
empty `Vec`, then pushing) when absent.  When the existing payload at the key is
singular, the `if let Vec` in the source skips the push and the map is returned
unchanged. -/
def Document.add_relationship (doc : Document) (ty : String) (data : Data) : Document :=
  match doc.relationships with
  | none =>
      { doc with relationships := some [(ty, [("data", VecOrData.vec [data])])] }
  | some relationships =>
      match alFind relationships ty with
      | none =>
          { doc with
            relationships := some (alInsert relationships ty [("data", VecOrData.vec [data])]) }
      | some dataMap =>
          let dataMap' :=
            match alFind dataMap "data" with
            | some (VecOrData.vec v) => alInsert dataMap "data" (VecOrData.vec (v ++ [data]))
            | _ => dataMap
          { doc with relationships := some (alInsert relationships ty dataMap') }

/-- `Document::add_singular_relationship` (api.rs line 239): insert a singular
relationship at key `ty`; `entry(ty).or_insert_with` leaves the map unchanged
when the key already exists. -/
def Document.add_singular_relationship (doc : Document) (ty : String) (data : Data) :
    Document :=
  match doc.relationships with
  | none =>
      { doc with relationships := some [(ty, [("data", VecOrData.data data)])] }
  | some relationships =>
      match alFind relationships ty with
      | some _ => doc
      | none =>
          { doc with
            relationships := some (alInsert relationships ty [("data", VecOrData.data data)]) }

/-! ## `src/json/attributes.rs` -/

/-- Position of the first occurrence of `"\n\n"` (`str::find` in `summary`). -/
def summaryIdx : List Char → Option Nat
  | [] => none
  | [_] => none
  | '\n' :: '\n' :: _ => some 0
  | _ :: rest => (summaryIdx rest).map (· + 1)

/-- `summary` (attributes.rs line 6): the first paragraph of markdown with
formatting intact — the prefix up to the first `"\n\n"`, or the whole string. -/
def summary (markdown : String) : String :=
  match summaryIdx markdown.toList with
  | some index => ⟨markdown.toList.take index⟩
  | none => markdown

/-- Modelled from the spec: `plain_summary` (attributes.rs line 16) renders the
first paragraph via the external `pulldown_cmark` event parser, which is not
part of this repository's sources.  Per §4.3 the result is "the first
paragraph's rendered text with all markup removed except inline code spans,
which are preserved delimited by backticks; rendering stops at the end of the
first paragraph or first heading".  This model covers paragraph breaks (blank
lines) and ATX headings (leading `#` markers followed by a space are stripped);
inline code spans are passed through verbatim, which coincides with the
source's re-emission of a backtick at each code-span boundary.  Other inline
markup (links, emphasis) is beyond the inputs considered here. -/
def plain_summary (markdown : String) : String :=
  let block := (summary markdown).toList
  match block with
  | '#' :: _ => ⟨(block.dropWhile (· = '#')).dropWhile (· = ' ')⟩
  | _ => ⟨block⟩

/-! ## `src/json/mod.rs` — the document-graph builder

The analysis snapshot (`rls-analysis`, external) hands `create_documentation`
a tree of definitions: `def_roots` lists the crate roots by name,
`get_def(id)` resolves an id, and `for_each_child_def(id)` enumerates a
definition's direct children.  The claims under verification quantify over
tree-shaped inputs, so the input is embedded as a forest of definition trees:
`DefForest.cons d children rest` is the tree with root definition `d` and
child forest `children`, followed by the sibling forest `rest`.
`for_each_child_def` on a node returns exactly its `children` forest. -/

/-- `DefKind` (rls-analysis): the definition kinds `create_documentation`
distinguishes.  `Union`, `Macro` and `Method` are commented out in the source
as unsupported by rls-analysis and are omitted here; `loc` is `DefKind::Local`. -/
inductive DefKind where
  | mod | struct | enum | trait | function | type | static | const | field
  | tuple | loc
deriving DecidableEq, Repr

/-- `Def` (rls-analysis): one definition of the analysis snapshot. -/
structure Def where
  id : Nat
  kind : DefKind
  qualname : String
  name : String
  docs : String
  parent : Option Nat
deriving DecidableEq, Repr

/-- A forest of definition trees: `cons d children rest` is one tree
(root `d`, child forest `children`) followed by its sibling trees `rest`. -/
inductive DefForest where
  | nil : DefForest
  | cons (d : Def) (children : DefForest) (rest : DefForest) : DefForest
deriving DecidableEq, Repr

/-- Concatenation of forests (used for the work queue: children are pushed
onto the back of the queue). -/
def DefForest.append : DefForest → DefForest → DefForest
  | .nil, f => f
  | .cons d c r, f => .cons d c (r.append f)

/-- Number of definitions in a forest. -/
def DefForest.size : DefForest → Nat
  | .nil => 0
  | .cons _ c r => 1 + c.size + r.size

/-- Every node of a forest, with its child forest, in depth-first order. -/
def DefForest.allNodes : DefForest → List (Def × DefForest)
  | .nil => []
  | .cons d c r => (d, c) :: (c.allNodes ++ r.allNodes)

/-- The root nodes of a forest (what `for_each_child_def` enumerates). -/
def DefForest.tops : DefForest → List (Def × DefForest)
  | .nil => []
  | .cons d c r => (d, c) :: r.tops

/-- The kind → (display type, plural relationship name) mapping that appears,
three times verbatim, in `create_documentation` (mod.rs lines 70, 111, 165);
`none` for the dropped kinds (`Tuple`, `Local` hit `continue`). -/
def kindTys : DefKind → Option (String × String)
  | .mod => some ("module", "modules")
  | .struct => some ("struct", "structs")
  | .enum => some ("enum", "enums")
  | .trait => some ("trait", "traits")
  | .function => some ("function", "functions")
  | .type => some ("type", "types")
  | .static => some ("static", "statics")
  | .const => some ("const", "consts")
  | .field => some ("field", "fields")
  | .tuple => none
  | .loc => none

/-- The `for id in child_ids { ... }` loops (mod.rs lines 65–92 and 163–187):
for each direct child whose kind has a display type, add a plural relationship
`child_ty ↦ Data { ty, qualname }` on the document; dropped kinds `continue`. -/
def addChildRelationships (doc : Document) : DefForest → Document
  | .nil => doc
  | .cons d _ r =>
      match kindTys d.kind with
      | none => addChildRelationships doc r
      | some (ty, child_ty) =>
          addChildRelationships (doc.add_relationship child_ty ⟨ty, d.qualname⟩) r

/-- The document built for one retained definition (mod.rs lines 130–187):
type and id, the four attributes, the singular `"parent"` relationship for a
module whose parent is not the crate root (`get_def(parent_id)` is modelled by
the total lookup `getDef`, as the source unwraps the result), and one plural
relationship per retained direct child. -/
def buildNodeDoc (getDef : Nat → Def) (root_qualname : String) (ty : String)
    (d : Def) (children : DefForest) : Document :=
  let document := ((((Document.new.setTy ty).setId d.qualname).setAttr
      "name" d.name).setAttr
      "summary" (summary d.docs)).setAttr
      "plainSummary" (plain_summary d.docs)
  let document := document.setAttr "docs" d.docs
  let document :=
    if d.kind = DefKind.mod then
      match d.parent with
      | some parent_id =>
          let parent_def := getDef parent_id
          if parent_def.qualname ≠ root_qualname then
            document.add_singular_relationship "parent" ⟨"module", parent_def.qualname⟩
          else document
      | none => document
    else document
  addChildRelationships document children

/-- The work-queue loop of `create_documentation` (mod.rs lines 97–191): pop a
definition, enqueue all of its children (the source pushes every child id
before the kind match), skip the dropped kinds, and otherwise emit the node's
document.  The queue is a forest; `fuel` bounds the number of pops and is
instantiated with the queue's size, which the loop never exceeds on
tree-shaped input. -/
def processQueue (getDef : Nat → Def) (root_qualname : String) :
    Nat → DefForest → List Document
  | 0, _ => []
  | _ + 1, .nil => []
  | fuel + 1, .cons d children rest =>
      match kindTys d.kind with
      | none => processQueue getDef root_qualname fuel (rest.append children)
      | some (ty, _) =>
          buildNodeDoc getDef root_qualname ty d children ::
            processQueue getDef root_qualname fuel (rest.append children)

/-- One crate root of the analysis snapshot: its `def_roots` name, its root
definition (`get_def(root_id)`), and the forest of its top-level children. -/
structure CrateRoot where
  name : String
  root : Def
  children : DefForest

/-- The `AnalysisHost` handle: the crate roots with their definition trees,
and `get_def` as a total lookup (each `get_def` in the traversal is unwrapped
by the source, so the claims are settled on inputs where lookups succeed). -/
structure AnalysisHost where
  roots : List CrateRoot
  getDef : Nat → Def

/-- `create_documentation` (mod.rs line 18): resolve the crate root by name
(`CrateErr` when absent), build the crate document (type `"crate"`, id the
crate name, `summary` from `plain_summary`, `docs`), add one plural
relationship per retained top-level child, then run the work queue seeded
with the root's children to produce `included`. -/
def create_documentation (host : AnalysisHost) (crate_name : String) :
    Except String Documentation :=
  match host.roots.find? (fun r => r.name = crate_name) with
  | none => .error ("Crate not found: " ++ crate_name)
  | some root =>
      let root_def := root.root
      let document := ((Document.new.setTy "crate").setId crate_name).setAttr
          "summary" (plain_summary root_def.docs)
      let document := document.setAttr "docs" root_def.docs
      let document := addChildRelationships document root.children
      let included :=
        processQueue host.getDef root_def.qualname root.children.size root.children
      .ok { data := some document, included := some included }

/-! ## `src/test.rs` — the doctest extractor's line transformation

`find_test_blocks` (test.rs line 102) walks the `pulldown_cmark` event stream
of a document's markdown; the markdown tokenizer itself is the external
`pulldown_cmark` crate.  Within one matched fenced code region (language tag
empty or `"rust"`), the `Event::Text` payloads are the region's lines; the
inner loop (test.rs lines 119–129) transforms each line and appends it to the
region's snippet.  That inner transformation is embedded here over the list of
a region's text lines, as `List Char` (the source byte-slices `&line[1..]`,
`&line[2..]`; the inputs are ASCII, where byte and char indexing agree). -/

/-- `str::trim_start`: drop leading whitespace (`char::is_whitespace`). -/
def trimStart (l : List Char) : List Char := l.dropWhile (·.isWhitespace)

/-- `str::trim_end`: drop trailing whitespace. -/
def trimEnd (l : List Char) : List Char := l.rdropWhile (·.isWhitespace)

/-- `str::trim`: drop leading and trailing whitespace. -/
def strTrim (l : List Char) : List Char := trimEnd (trimStart l)

/-- The per-line transformation of `find_test_blocks` (test.rs lines 120–127):
trim the line; a line starting with `"##"` loses one leading byte, a line
starting with `"# "` loses two, any other line is kept as trimmed. -/
def processLine (line : List Char) : List Char :=
  let l := strTrim line
  if ['#', '#'].isPrefixOf l then l.drop 1
  else if ['#', ' '].isPrefixOf l then l.drop 2
  else l

/-- The snippet accumulated for one matched code region
(`test.push_str(trimmed_line)` over the region's text-event lines). -/
def regionSnippet (lines : List (List Char)) : List Char :=
  lines.foldl (fun test line => test ++ processLine line) []

/-! ## `src/test.rs` — the test-program synthesizer `preprocess`

`preprocess` (test.rs line 147) parses the snippet with the external `syn`
crate (`syn::parse_crate`); the parse result is an explicit argument here.
The fragment of `syn`'s AST that `preprocess` consumes and produces is
embedded below. -/

/-- `syn::Expr`, restricted to what `preprocess` builds: a path expression and
a call expression. -/
inductive Expr where
  | path (ident : String) : Expr
  | call (f : Expr) (args : List Expr) : Expr

/-- `syn::ItemKind`, restricted to what `preprocess` inspects: an
`extern crate` item (with the optional original name of a rename), a function
item, or anything else. -/
inductive ItemKind where
  | externCrate (original : Option String) : ItemKind
  | fnKind : ItemKind
  | otherKind : ItemKind

/-- `syn::Item`: an item's identifier and kind (visibility and attributes are
not consulted by `preprocess` on input items). -/
structure Item where
  ident : String
  node : ItemKind

/-- `syn::Stmt`, restricted to what `preprocess` builds: an item statement
(`Stmt::Item`) or an expression statement with semicolon (`Stmt::Semi`). -/
inductive Stmt where
  | item (i : Item) : Stmt
  | semi (e : Expr) : Stmt

/-- The `main()` call statement `preprocess` appends (test.rs lines 166–183). -/
def mainFnCall : Stmt := .semi (.call (.path "main") [])

/-- The implicit `extern crate <crate_name>;` statement `preprocess` prepends
(test.rs lines 188–196). -/
def externCrateStmt (crate_name : String) : Stmt :=
  .item { ident := crate_name, node := .externCrate none }

/-- Is this item an `extern crate` item? (test.rs lines 150–153) -/
def isExternCrateItem (item : Item) : Bool :=
  match item.node with
  | .externCrate _ => true
  | _ => false

/-- Is this item a function named `main`? (test.rs lines 155–158) -/
def isMainFnItem (item : Item) : Bool :=
  match item.node with
  | .fnKind => item.ident == "main"
  | _ => false

/-- The statement list of the synthesized test function (test.rs lines
150–197): the snippet's items each become a statement; a `main()` call is
appended when a `main` function item exists; `extern crate <crate_name>;` is
prepended when no `extern crate` item exists and the crate is not `"std"`. -/
def preprocessStmts (items : List Item) (crate_name : String) : List Stmt :=
  let has_extern_crate := items.any isExternCrateItem
  let has_main_function := items.any isMainFnItem
  let stmts := items.map Stmt.item
  let stmts := if has_main_function then stmts ++ [mainFnCall] else stmts
  if ¬has_extern_crate ∧ crate_name ≠ "std" then
    externCrateStmt crate_name :: stmts
  else stmts

/-- The synthesized test function (test.rs lines 199–227): `a_doc_test`,
carrying the `#[test]` attribute, with the preprocessed statements as body. -/
structure TestFunction where
  ident : String
  hasTestAttr : Bool
  stmts : List Stmt

/-- The outcome of `preprocess`: on parse success, the synthesized test
function (the source then prints it to a string through `quote`'s token
stream, which is an external pretty-printer); on parse failure, the raw
snippet wrapped verbatim in a test function (test.rs line 237). -/
inductive PreprocessResult where
  | structured (f : TestFunction) : PreprocessResult
  | verbatimWrapped (s : String) : PreprocessResult

/-- `preprocess` (test.rs line 147) with the result of `syn::parse_crate test`
passed explicitly: `some items` when the snippet parses as a sequence of
top-level items, `none` otherwise. -/
def preprocess (parse_result : Option (List Item)) (test : String)
    (crate_name : String) : PreprocessResult :=
  match parse_result with
  | some items =>
      .structured { ident := "a_doc_test", hasTestAttr := true,
                    stmts := preprocessStmts items crate_name }
  | none =>
      .verbatimWrapped ("#[test] fn a_doc_test() \x7b\n" ++ test ++ "\n\x7d")

/-! ## `src/json/api.rs` — serialization to and from JSON

The serializer is the `serde` derive over the `Documentation` types: `ty` is
renamed to `"type"`, `relationships` is skipped when `None` (its
`skip_serializing_if`), the other `Option` fields serialize `None` as `null`,
and `VecOrData` is `#[serde(untagged)]`: a plural relationship serializes as a
bare JSON array, a singular one as a bare object, and deserialization tries
the variants in declaration order (`Vec` first, then `Data`). -/

/-- The fragment of `serde_json::Value` the document graph serializes into. -/
inductive Json where
  | str (s : String) : Json
  | arr (elems : List Json) : Json
  | obj (fields : List (String × Json)) : Json
  | null : Json

/-- Serialize a `Data` reference. -/
def Data.toJson (d : Data) : Json :=
  .obj [("type", .str d.ty), ("id", .str d.id)]

/-- Serialize a `VecOrData` (untagged: array for `Vec`, object for `Data`). -/
def VecOrData.toJson : VecOrData → Json
  | .vec v => .arr (v.map Data.toJson)
  | .data d => d.toJson

/-- Serialize a string-valued map (the `attributes` field). -/
def strMapToJson (m : List (String × String)) : Json :=
  .obj (m.map fun p => (p.1, .str p.2))

/-- Serialize one relationship's inner map (`"data" ↦ VecOrData`). -/
def dataMapToJson (m : List (String × VecOrData)) : Json :=
  .obj (m.map fun p => (p.1, p.2.toJson))

/-- Serialize a `Document`; `relationships` is omitted when `none`. -/
def Document.toJson (doc : Document) : Json :=
  .obj ([("type", .str doc.ty), ("id", .str doc.id),
         ("attributes", strMapToJson doc.attributes)] ++
    (match doc.relationships with
     | none => []
     | some rels => [("relationships", .obj (rels.map fun p => (p.1, dataMapToJson p.2)))]))

/-- Serialize a `Documentation` (`None` fields serialize as `null`). -/
def Documentation.toJson (docn : Documentation) : Json :=
  .obj [("data", match docn.data with
                 | none => .null
                 | some d => d.toJson),
        ("included", match docn.included with
                     | none => .null
                     | some l => .arr (l.map Document.toJson))]

/-- Field lookup in a JSON object (serde reads the first occurrence). -/
def jsonField : Json → String → Option Json
  | .obj fields, k => alFind fields k
  | _, _ => none

/-- Deserialize a JSON value as a `String`. -/
def parseStr : Json → Option String
  | .str s => some s
  | _ => none

/-- Deserialize every element of a JSON sequence, failing if any fails. -/
def parseList {β : Type} (f : Json → Option β) : List Json → Option (List β)
  | [] => some []
  | j :: rest =>
      match f j, parseList f rest with
      | some b, some bs => some (b :: bs)
      | _, _ => none

/-- Deserialize every entry of a JSON object, failing if any fails. -/
def parseKeyed {β : Type} (f : Json → Option β) :
    List (String × Json) → Option (List (String × β))
  | [] => some []
  | (k, j) :: rest =>
      match f j, parseKeyed f rest with
      | some b, some bs => some ((k, b) :: bs)
      | _, _ => none

/-- Deserialize a `Data` reference. -/
def parseData (j : Json) : Option Data :=
  match (jsonField j "type").bind parseStr, (jsonField j "id").bind parseStr with
  | some ty, some id => some { ty := ty, id := id }
  | _, _ => none

/-- Deserialize a `VecOrData`: untagged, so try `Vec` (a JSON array of `Data`)
first, then `Data` (a JSON object). -/
def parseVecOrData (j : Json) : Option VecOrData :=
  match j with
  | .arr elems => (parseList parseData elems).map VecOrData.vec
  | _ => (parseData j).map VecOrData.data

/-- Deserialize a string-valued map. -/
def parseStrMap (j : Json) : Option (List (String × String)) :=
  match j with
  | .obj fields => parseKeyed parseStr fields
  | _ => none

/-- Deserialize one relationship's inner map. -/
def parseDataMap (j : Json) : Option (List (String × VecOrData)) :=
  match j with
  | .obj fields => parseKeyed parseVecOrData fields
  | _ => none

/-- Deserialize a `Document`; a missing `relationships` field is `none`. -/
def parseDocument (j : Json) : Option Document :=
  match (jsonField j "type").bind parseStr, (jsonField j "id").bind parseStr,
      (jsonField j "attributes").bind parseStrMap with
  | some ty, some id, some attrs =>
      match jsonField j "relationships" with
      | none => some { ty := ty, id := id, attributes := attrs, relationships := none }
      | some (Json.obj fields) =>
          (parseKeyed parseDataMap fields).map fun rels =>
            { ty := ty, id := id, attributes := attrs, relationships := some rels }
      | some _ => none
  | _, _, _ => none

/-- Deserialize a `Documentation`; `Option` fields accept `null` (and a
missing field) as `None`. -/
def parseDocumentation (j : Json) : Option Documentation :=
  match j with
  | .obj _ =>
      let dataPart :=
        match jsonField j "data" with
        | none => some none
        | some Json.null => some none
        | some jd => (parseDocument jd).map some
      let includedPart :=
        match jsonField j "included" with
        | none => some (Option.none)
        | some Json.null => some (Option.none)
        | some (Json.arr elems) => (parseList parseDocument elems).map some
        | some _ => none
      match dataPart, includedPart with
      | some data, some included => some { data := data, included := included }
      | _, _ => none
  | _ => none

/-! ## Lemmas about the association-list model -/

theorem alFind_alInsert {α : Type} (m : List (String × α)) (k k' : String) (v : α) :
    alFind (alInsert m k v) k' = if k' = k then some v else alFind m k' := by
  induction m with
  | nil =>
      by_cases h : k' = k
      · simp [alInsert, alFind, h]
      · simp [alInsert, alFind, h, Ne.symm h]
  | cons p rest ih =>
      obtain ⟨k2, v2⟩ := p
      by_cases h : k2 = k
      · subst h
        by_cases h2 : k2 = k'
        · subst h2
          simp [alInsert, alFind]
        · simp [alInsert, alFind, h2, Ne.symm h2]
      · by_cases h2 : k2 = k'
        · subst h2
          simp [alInsert, alFind, h, ih, Ne.symm h]
        · simp [alInsert, alFind, h, h2, ih]

theorem alFind_alInsert_self {α : Type} (m : List (String × α)) (k : String) (v : α) :
    alFind (alInsert m k v) k = some v := by
  simp [alFind_alInsert]

theorem alFind_alInsert_ne {α : Type} (m : List (String × α)) (k k' : String) (v : α)
    (h : k' ≠ k) : alFind (alInsert m k v) k' = alFind m k' := by
  simp [alFind_alInsert, h]

/-! ## Claim C10 — first write wins for `add_singular_relationship` -/

/-- C10: for every `Document` and relationship key, calling
`add_singular_relationship` when that key is already present in the
relationships map leaves the `Document` completely unchanged (first write
wins): a singular relationship, once set, is never overwritten by a later
call under the same key. -/
theorem add_singular_relationship_existing_key_noop (doc : Document)
    (rels : List (String × List (String × VecOrData))) (ty : String) (data : Data)
    (hrels : doc.relationships = some rels) (hkey : (alFind rels ty).isSome = true) :
    doc.add_singular_relationship ty data = doc := by
  obtain ⟨v, hv⟩ := Option.isSome_iff_exists.mp hkey
  simp [Document.add_singular_relationship, hrels, hv]

/-- Witness for C10: a module document whose singular `"parent"` relationship
is already set is untouched by a second `add_singular_relationship "parent"`. -/
theorem add_singular_relationship_existing_key_noop_witness :
    (Document.add_singular_relationship
      { ty := "module", id := "pkg::m", attributes := [],
        relationships := some [("parent", [("data", VecOrData.data ⟨"module", "pkg::a"⟩)])] }
      "parent" ⟨"module", "pkg::b"⟩) =
    { ty := "module", id := "pkg::m", attributes := [],
      relationships := some [("parent", [("data", VecOrData.data ⟨"module", "pkg::a"⟩)])] } :=
  add_singular_relationship_existing_key_noop _
    [("parent", [("data", VecOrData.data ⟨"module", "pkg::a"⟩)])] "parent"
    ⟨"module", "pkg::b"⟩ rfl (by decide)

/-! ## Claim C8 — parse failure degrades to a verbatim wrap -/

/-- C8: `preprocess` is total (it returns a `PreprocessResult`, never a parse
error): when the snippet fails to parse as a sequence of items, it returns a
test function whose body is the raw, unmodified snippet text wrapped verbatim
— the snippet occurs verbatim between the fixed test-function header and the
closing brace. -/
theorem preprocess_parse_failure_wraps_verbatim (test crate_name : String) :
    preprocess none test crate_name =
      .verbatimWrapped ("#[test] fn a_doc_test() \x7b\n" ++ test ++ "\n\x7d") :=
  rfl

/-! ## Claim C3 — entry-point call and extern-crate injection -/

/-- Is this statement the appended `main()` call? -/
def isMainCallStmt : Stmt → Bool
  | .semi (.call (.path "main") []) => true
  | _ => false

/-- Is this item an `extern crate` declaration with identifier `crate_name`? -/
def itemExternFor (crate_name : String) (item : Item) : Bool :=
  isExternCrateItem item && item.ident == crate_name

/-- Is this statement an `extern crate` declaration for `crate_name`? -/
def stmtExternFor (crate_name : String) : Stmt → Bool
  | .item i => itemExternFor crate_name i
  | _ => false

theorem isMainCallStmt_item (i : Item) : isMainCallStmt (Stmt.item i) = false := rfl

theorem stmtExternFor_item (crate_name : String) (i : Item) :
    stmtExternFor crate_name (Stmt.item i) = itemExternFor crate_name i := rfl

/-- Normal form of `preprocessStmts`: an optional prepended `extern crate`,
the items, and an optional appended `main()` call. -/
theorem preprocessStmts_eq (items : List Item) (crate_name : String) :
    preprocessStmts items crate_name =
      (if items.any isExternCrateItem = false ∧ crate_name ≠ "std"
        then [externCrateStmt crate_name] else []) ++
      items.map Stmt.item ++
      (if items.any isMainFnItem = true then [mainFnCall] else []) := by
  unfold preprocessStmts
  by_cases hext : items.any isExternCrateItem = true <;>
    by_cases hstd : crate_name = "std" <;>
    by_cases hmain : items.any isMainFnItem = true <;>
    simp [hext, hstd, hmain, Bool.not_eq_true] at *

theorem countP_isMainCall_map (items : List Item) :
    (items.map Stmt.item).countP isMainCallStmt = 0 := by
  rw [List.countP_eq_zero]
  intro s hs
  obtain ⟨i, _, rfl⟩ := List.mem_map.mp hs
  simp [isMainCallStmt_item]

theorem countP_stmtExtern_map (crate_name : String) (items : List Item) :
    (items.map Stmt.item).countP (stmtExternFor crate_name) =
      items.countP (itemExternFor crate_name) := by
  rw [List.countP_map]
  rfl

/-- C3: for every snippet that parses as a sequence of top-level items
(`parse_result = some items`):
(a) if the snippet contains a function named `main`, exactly one call to it is
appended at the end of the synthesized body;
(b) if the snippet explicitly declares `extern crate <crate_name>` exactly
once, the declaration appears exactly once in the output;
(c) when the crate is `"std"` or some `extern crate` declaration is already
present, nothing is prepended (the body is exactly the items, plus the
`main()` call when one is due);
(d) when no `extern crate` declaration is present and the crate is not
`"std"`, the declaration for the crate under test is prepended once and
appears exactly once. -/
theorem preprocess_entry_point_and_extern_crate (items : List Item) (crate_name : String) :
    ((items.any isMainFnItem = true →
        (preprocessStmts items crate_name).countP isMainCallStmt = 1 ∧
        (preprocessStmts items crate_name).getLast? = some mainFnCall) ∧
     (items.countP (itemExternFor crate_name) = 1 →
        (preprocessStmts items crate_name).countP (stmtExternFor crate_name) = 1) ∧
     (crate_name = "std" ∨ items.any isExternCrateItem = true →
        preprocessStmts items crate_name =
          (if items.any isMainFnItem = true then items.map Stmt.item ++ [mainFnCall]
           else items.map Stmt.item)) ∧
     (items.any isExternCrateItem = false ∧ crate_name ≠ "std" →
        (preprocessStmts items crate_name).head? = some (externCrateStmt crate_name) ∧
        (preprocessStmts items crate_name).countP (stmtExternFor crate_name) = 1)) := by
  rw [preprocessStmts_eq]
  refine ⟨?_, ?_, ?_, ?_⟩
  · -- (a) exactly one main() call, at the end
    intro hmain
    rw [hmain]
    simp only [if_true]
    constructor
    · have hone : List.countP isMainCallStmt [mainFnCall] = 1 := rfl
      by_cases hpre : items.any isExternCrateItem = false ∧ crate_name ≠ "std"
      · rw [if_pos hpre]
        simp only [List.countP_append, countP_isMainCall_map, hone]
        simp [externCrateStmt, List.countP_cons, isMainCallStmt_item]
      · rw [if_neg hpre]
        simp only [List.nil_append, List.countP_append, countP_isMainCall_map, hone]
    · simp [List.getLast?_append]
  · -- (b) an explicitly declared extern crate stays unique
    intro honce
    have hpos : 0 < items.countP (itemExternFor crate_name) := by omega
    rw [List.countP_pos_iff] at hpos
    obtain ⟨i, hi, hfor⟩ := hpos
    have hany : items.any isExternCrateItem = true :=
      List.any_eq_true.mpr ⟨i, hi, ((Bool.and_eq_true _ _).mp hfor).1⟩
    have hpre : ¬(items.any isExternCrateItem = false ∧ crate_name ≠ "std") := by
      simp [hany]
    rw [if_neg hpre]
    have hm0 : List.countP (stmtExternFor crate_name) [mainFnCall] = 0 := rfl
    simp only [List.nil_append, List.countP_append, countP_stmtExtern_map, honce]
    by_cases hmain : items.any isMainFnItem = true <;> simp [hmain, hm0]
  · -- (c) nothing is prepended for std or when an extern crate exists
    intro h
    have hpre : ¬(items.any isExternCrateItem = false ∧ crate_name ≠ "std") := by
      rcases h with h | h
      · simp [h]
      · simp [h]
    rw [if_neg hpre]
    by_cases hmain : items.any isMainFnItem = true <;> simp [hmain]
  · -- (d) the implicit extern crate is prepended, once
    intro ⟨hnoext, hstd⟩
    rw [if_pos ⟨hnoext, hstd⟩]
    constructor
    · simp
    · simp only [List.countP_append, countP_stmtExtern_map]
      have hzero : items.countP (itemExternFor crate_name) = 0 := by
        rw [List.countP_eq_zero]
        intro i hi
        rw [List.any_eq_false] at hnoext
        simp [itemExternFor, hnoext i hi]
      rw [hzero]
      have hm0 : List.countP (stmtExternFor crate_name) [mainFnCall] = 0 := rfl
      have hext1 : List.countP (stmtExternFor crate_name) [externCrateStmt crate_name] = 1 := by
        simp [externCrateStmt, List.countP_cons, stmtExternFor_item, itemExternFor,
          isExternCrateItem]
      by_cases hmain : items.any isMainFnItem = true <;> simp [hmain, hm0, hext1]

/-- Witness for C3: a snippet consisting of a `main` function, preprocessed
for crate `test_crate`, gets exactly one appended `main()` call at the end and
exactly one prepended `extern crate test_crate;`. -/
theorem preprocess_entry_point_and_extern_crate_witness :
    (preprocessStmts [⟨"main", ItemKind.fnKind⟩] "test_crate").countP isMainCallStmt = 1 ∧
    (preprocessStmts [⟨"main", ItemKind.fnKind⟩] "test_crate").getLast? = some mainFnCall ∧
    (preprocessStmts [⟨"main", ItemKind.fnKind⟩] "test_crate").countP
      (stmtExternFor "test_crate") = 1 := by
  have h := preprocess_entry_point_and_extern_crate [⟨"main", ItemKind.fnKind⟩] "test_crate"
  exact ⟨(h.1 (by rfl)).1, (h.1 (by rfl)).2, (h.2.2.2 ⟨by rfl, by decide⟩).2⟩
/-! ## Claims C4 and C6 — the extractor's line transformation -/

/-- The snippet of a region is the concatenation of its transformed lines. -/
theorem regionSnippet_eq_flatten (lines : List (List Char)) :
    regionSnippet lines = (lines.map processLine).flatten := by
  suffices h : ∀ init : List Char,
      lines.foldl (fun test line => test ++ processLine line) init =
        init ++ (lines.map processLine).flatten by
    simpa [regionSnippet] using h []
  induction lines with
  | nil => intro init; simp
  | cons l rest ih => intro init; simp [ih]

/-- A line whose trimmed form does not begin with a hide marker is kept as
trimmed, unchanged. -/
theorem processLine_no_marker (line : List Char)
    (h1 : ['#', '#'].isPrefixOf (strTrim line) = false)
    (h2 : ['#', ' '].isPrefixOf (strTrim line) = false) :
    processLine line = strTrim line := by
  simp [processLine, h1, h2]

/-- C4 counterexample: the line `"  foo();\n"` does not begin with the hide
marker, yet the extracted snippet for its region is `"foo();"` — the line is
not kept character for character: its leading whitespace is trimmed away. -/
theorem region_lines_not_verbatim_counterexample :
    ['#'].isPrefixOf "  foo();\n".toList = false ∧
    regionSnippet ["  foo();\n".toList] = "foo();".toList ∧
    regionSnippet ["  foo();\n".toList] ≠ "  foo();\n".toList := by
  refine ⟨by decide, by decide, by decide⟩

/-- C4 as amended: within a matched code region, every line is first trimmed
of leading and trailing whitespace; a line whose trimmed form does not begin
with a hide marker is kept exactly as trimmed (character for character apart
from the trimmed surrounding whitespace), and the surviving lines are
concatenated into one snippet per region, in which each such trimmed line
occurs contiguously. -/
theorem region_lines_kept_trimmed (lines : List (List Char)) (line : List Char)
    (hmem : line ∈ lines)
    (h1 : ['#', '#'].isPrefixOf (strTrim line) = false)
    (h2 : ['#', ' '].isPrefixOf (strTrim line) = false) :
    processLine line = strTrim line ∧ strTrim line <:+: regionSnippet lines := by
  refine ⟨processLine_no_marker line h1 h2, ?_⟩
  rw [regionSnippet_eq_flatten, ← processLine_no_marker line h1 h2]
  exact List.infix_of_mem_flatten (List.mem_map_of_mem processLine hmem)

/-- Witness for C4 (amended): in a region with the lines `"  a\n"` and
`"# use b;\n"`, the first line survives as its trimmed form `"a"`, which
occurs contiguously in the region's snippet. -/
theorem region_lines_kept_trimmed_witness :
    processLine "  a\n".toList = strTrim "  a\n".toList ∧
    strTrim "  a\n".toList <:+: regionSnippet ["  a\n".toList, "# use b;\n".toList] :=
  region_lines_kept_trimmed ["  a\n".toList, "# use b;\n".toList] "  a\n".toList
    (by decide) (by decide) (by decide)

/-- C6 counterexample: the line `"# # hi"` begins with the hidden-line marker
followed by a space, yet the stripped output `"# hi"` still contains the
marker (still even as a marker-and-space prefix). -/
theorem hidden_marker_stripped_counterexample :
    ['#', ' '].isPrefixOf "# # hi".toList = true ∧
    regionSnippet ["# # hi".toList] = "# hi".toList ∧
    '#' ∈ regionSnippet ["# # hi".toList] := by
  refine ⟨by decide, by decide, by decide⟩

/-- C6 as amended: for a (whitespace-trimmed) line beginning with the
hidden-line marker `"# "`, the stripped output is exactly the remainder after
that leading marker and space — so the leading marker occurrence is removed,
and when the remainder contains no marker character the output contains none;
and a line beginning with the doubled marker `"##"` is emitted with the
doubling collapsed to a single literal `"#"`. -/
theorem hidden_marker_stripped (rest : List Char)
    (h : strTrim ('#' :: ' ' :: rest) = '#' :: ' ' :: rest)
    (h2 : strTrim ('#' :: '#' :: rest) = '#' :: '#' :: rest) :
    processLine ('#' :: ' ' :: rest) = rest ∧
    ('#' ∉ rest → '#' ∉ processLine ('#' :: ' ' :: rest)) ∧
    processLine ('#' :: '#' :: rest) = '#' :: rest := by
  have hpp : ['#', '#'].isPrefixOf ('#' :: ' ' :: rest) = false := by
    simp [List.isPrefixOf]
  have hps : ['#', ' '].isPrefixOf ('#' :: ' ' :: rest) = true := by
    simp [List.isPrefixOf]
  have hdd : ['#', '#'].isPrefixOf ('#' :: '#' :: rest) = true := by
    simp [List.isPrefixOf]
  have hstrip : processLine ('#' :: ' ' :: rest) = rest := by
    simp [processLine, h, hpp, hps]
  refine ⟨hstrip, ?_, ?_⟩
  · intro hno
    rw [hstrip]
    exact hno
  · simp [processLine, h2, hdd]

/-- Witness for C6 (amended): the hidden line `"# use b;"` extracts to
`"use b;"`, which contains no marker; the escaped line `"##escaped"`
extracts to `"#escaped"`. -/
theorem hidden_marker_stripped_witness :
    processLine "# use b;".toList = "use b;".toList ∧
    '#' ∉ processLine "# use b;".toList ∧
    processLine "##escaped".toList = "#escaped".toList := by
  have h := hidden_marker_stripped "use b;".toList (by decide) (by decide)
  have he := hidden_marker_stripped "escaped".toList (by decide) (by decide)
  exact ⟨h.1, h.2.1 (by decide), he.2.2⟩

/-! ## Claim C5 — serialization round trip -/

theorem parseData_toJson (d : Data) : parseData d.toJson = some d := rfl

theorem parseList_map_toJson {β : Type} (f : β → Json) (g : Json → Option β)
    (hfg : ∀ b, g (f b) = some b) (l : List β) :
    parseList g (l.map f) = some l := by
  induction l with
  | nil => rfl
  | cons b rest ih => simp [parseList, hfg, ih]

theorem parseKeyed_map_toJson {β : Type} (f : β → Json) (g : Json → Option β)
    (hfg : ∀ b, g (f b) = some b) (m : List (String × β)) :
    parseKeyed g (m.map fun p => (p.1, f p.2)) = some m := by
  induction m with
  | nil => rfl
  | cons p rest ih =>
      obtain ⟨k, b⟩ := p
      simp [parseKeyed, hfg, ih]

theorem parseVecOrData_toJson (v : VecOrData) : parseVecOrData v.toJson = some v := by
  cases v with
  | vec l =>
      simp [VecOrData.toJson, parseVecOrData, parseList_map_toJson _ _ parseData_toJson]
  | data d => rfl

theorem parseStrMap_toJson (m : List (String × String)) :
    parseStrMap (strMapToJson m) = some m := by
  have h : ∀ s : String, parseStr (Json.str s) = some s := fun _ => rfl
  simp [strMapToJson, parseStrMap, parseKeyed_map_toJson Json.str parseStr h]

theorem parseDataMap_toJson (m : List (String × VecOrData)) :
    parseDataMap (dataMapToJson m) = some m := by
  simp [dataMapToJson, parseDataMap,
    parseKeyed_map_toJson VecOrData.toJson parseVecOrData parseVecOrData_toJson]

theorem parseDocument_toJson (doc : Document) : parseDocument doc.toJson = some doc := by
  cases doc with
  | mk ty id attrs rels =>
      cases rels with
      | none =>
          simp [Document.toJson, parseDocument, jsonField, alFind, parseStr,
            parseStrMap_toJson]
      | some rels =>
          simp [Document.toJson, parseDocument, jsonField, alFind, parseStr,
            parseStrMap_toJson,
            parseKeyed_map_toJson dataMapToJson parseDataMap parseDataMap_toJson]

theorem parseDocumentation_toJson (docn : Documentation) :
    parseDocumentation docn.toJson = some docn := by
  cases docn with
  | mk data included =>
      cases data with
      | none =>
          cases included with
          | none => rfl
          | some l =>
              simp [Documentation.toJson, parseDocumentation, jsonField, alFind,
                parseList_map_toJson Document.toJson parseDocument parseDocument_toJson]
      | some d =>
          have hpd := parseDocument_toJson d
          cases included with
          | none =>
              show parseDocumentation
                  (Json.obj [("data", d.toJson), ("included", Json.null)]) =
                some { data := some d, included := none }
              generalize hj : d.toJson = j at hpd ⊢
              cases j with
              | null => simp [parseDocument, jsonField] at hpd
              | str s => simp [parseDocumentation, jsonField, alFind, hpd]
              | arr a => simp [parseDocumentation, jsonField, alFind, hpd]
              | obj f => simp [parseDocumentation, jsonField, alFind, hpd]
          | some l =>
              show parseDocumentation
                  (Json.obj [("data", d.toJson),
                    ("included", Json.arr (l.map Document.toJson))]) =
                some { data := some d, included := some l }
              have hl := parseList_map_toJson Document.toJson parseDocument
                parseDocument_toJson l
              generalize hj : d.toJson = j at hpd ⊢
              cases j with
              | null => simp [parseDocument, jsonField] at hpd
              | str s => simp [parseDocumentation, jsonField, alFind, hpd, hl]
              | arr a => simp [parseDocumentation, jsonField, alFind, hpd, hl]
              | obj f => simp [parseDocumentation, jsonField, alFind, hpd, hl]

/-- A document's `{type, id}` pair. -/
def docTypeId (doc : Document) : String × String := (doc.ty, doc.id)

/-- The shape of one relationship payload: `true` for plural, `false` for
singular. -/
def relShape : VecOrData → Bool
  | .vec _ => true
  | .data _ => false

/-- The relationship keys of a document together with the shape of each
payload. -/
def relShapes (doc : Document) : Option (List (String × List (String × Bool))) :=
  doc.relationships.map (List.map fun p => (p.1, p.2.map fun q => (q.1, relShape q.2)))

/-- C5: serializing a `Documentation` value to the output format and
re-parsing it recovers the same `{type, id}` pairs for `data` and `included`,
and for every relationship key the same shape — a singular relationship
re-parses as singular and a plural one as plural. -/
theorem documentation_roundtrip (docn : Documentation) :
    ∃ docn', parseDocumentation docn.toJson = some docn' ∧
      docn'.data.map docTypeId = docn.data.map docTypeId ∧
      docn'.included.map (List.map docTypeId) = docn.included.map (List.map docTypeId) ∧
      docn'.data.map relShapes = docn.data.map relShapes ∧
      docn'.included.map (List.map relShapes) = docn.included.map (List.map relShapes) :=
  ⟨docn, parseDocumentation_toJson docn, rfl, rfl, rfl, rfl⟩
/-! ## Lemmas about the document-graph builder -/

/-- The definitions the work queue pops, in breadth-first order, each with its
child forest (the same recursion as `processQueue`, forgetting the documents). -/
def bfsNodes : Nat → DefForest → List (Def × DefForest)
  | 0, _ => []
  | _ + 1, .nil => []
  | fuel + 1, .cons d c r => (d, c) :: bfsNodes fuel (r.append c)

theorem DefForest.allNodes_append (a b : DefForest) :
    (a.append b).allNodes = a.allNodes ++ b.allNodes := by
  induction a with
  | nil => simp [DefForest.append, DefForest.allNodes]
  | cons d c r ihc ihr => simp [DefForest.append, DefForest.allNodes, ihr]

theorem DefForest.size_append (a b : DefForest) :
    (a.append b).size = a.size + b.size := by
  induction a with
  | nil => simp [DefForest.append, DefForest.size]
  | cons d c r ihc ihr =>
      simp [DefForest.append, DefForest.size, ihr]
      omega

/-- With enough fuel (the queue's size suffices), the queue pops exactly the
nodes of the forest, in some order. -/
theorem bfsNodes_perm (fuel : Nat) : ∀ q : DefForest, q.size ≤ fuel →
    (bfsNodes fuel q).Perm q.allNodes := by
  induction fuel with
  | zero =>
      intro q hq
      cases q with
      | nil => simp [bfsNodes, DefForest.allNodes]
      | cons d c r => simp [DefForest.size] at hq
  | succ n ih =>
      intro q hq
      cases q with
      | nil => simp [bfsNodes, DefForest.allNodes]
      | cons d c r =>
          simp only [bfsNodes, DefForest.allNodes]
          refine List.Perm.cons _ ?_
          have hsz : (r.append c).size ≤ n := by
            rw [DefForest.size_append]
            simp [DefForest.size] at hq
            omega
          have h := ih (r.append c) hsz
          rw [DefForest.allNodes_append] at h
          exact h.trans List.perm_append_comm

/-- The root nodes of a forest are among its nodes. -/
theorem DefForest.tops_subset_allNodes (f : DefForest) : f.tops ⊆ f.allNodes := by
  induction f with
  | nil => simp [DefForest.tops, DefForest.allNodes]
  | cons d c r ihc ihr =>
      intro p hp
      simp only [DefForest.tops, List.mem_cons] at hp
      rcases hp with rfl | hp
      · simp [DefForest.allNodes]
      · simp [DefForest.allNodes]
        right; right
        exact ihr hp

/-- The nodes of a node's child forest are among the forest's nodes. -/
theorem DefForest.allNodes_trans (f : DefForest) (d : Def) (cs : DefForest)
    (h : (d, cs) ∈ f.allNodes) : cs.allNodes ⊆ f.allNodes := by
  induction f with
  | nil => simp [DefForest.allNodes] at h
  | cons d0 c0 r0 ihc ihr =>
      simp only [DefForest.allNodes, List.mem_cons, List.mem_append] at h
      rcases h with h | h | h
      · obtain ⟨h1, h2⟩ := Prod.mk.injEq .. ▸ h
        cases h
        intro p hp
        simp [DefForest.allNodes]
        right; left
        exact hp
      · intro p hp
        simp [DefForest.allNodes]
        right; left
        exact ihc h hp
      · intro p hp
        simp [DefForest.allNodes]
        right; right
        exact ihr h hp

/-- What `processQueue` emits per popped node. -/
def nodeDocOf (getDef : Nat → Def) (root_qualname : String) (p : Def × DefForest) :
    Option Document :=
  (kindTys p.1.kind).map fun tys => buildNodeDoc getDef root_qualname tys.1 p.1 p.2

/-- `processQueue` emits exactly one document per popped retained definition. -/
theorem processQueue_eq_filterMap (getDef : Nat → Def) (root_qualname : String)
    (fuel : Nat) : ∀ q : DefForest,
    processQueue getDef root_qualname fuel q =
      (bfsNodes fuel q).filterMap (nodeDocOf getDef root_qualname) := by
  induction fuel with
  | zero => intro q; cases q <;> simp [processQueue, bfsNodes]
  | succ n ih =>
      intro q
      cases q with
      | nil => simp [processQueue, bfsNodes]
      | cons d c r =>
          rcases hk : kindTys d.kind with _ | ⟨ty, cty⟩ <;>
            simp [processQueue, bfsNodes, hk, nodeDocOf, List.filterMap_cons, ih]

/-- Every variant of `add_relationship` only rewrites the `relationships`
field. -/
theorem add_relationship_eq_withRel (doc : Document) (ty : String) (data : Data) :
    ∃ r, doc.add_relationship ty data = { doc with relationships := r } := by
  rcases hr : doc.relationships with _ | rels
  · simp only [Document.add_relationship, hr]
    exact ⟨_, rfl⟩
  · rcases hf : alFind rels ty with _ | dm
    · simp only [Document.add_relationship, hr, hf]
      exact ⟨_, rfl⟩
    · simp only [Document.add_relationship, hr, hf]
      exact ⟨_, rfl⟩

/-- `add_singular_relationship` only rewrites the `relationships` field. -/
theorem add_singular_relationship_eq_withRel (doc : Document) (ty : String) (data : Data) :
    ∃ r, doc.add_singular_relationship ty data = { doc with relationships := r } := by
  rcases hr : doc.relationships with _ | rels
  · simp only [Document.add_singular_relationship, hr]
    exact ⟨_, rfl⟩
  · rcases hf : alFind rels ty with _ | dm
    · simp only [Document.add_singular_relationship, hr, hf]
      exact ⟨_, rfl⟩
    · simp only [Document.add_singular_relationship, hr, hf]
      exact ⟨doc.relationships, rfl⟩

/-- `addChildRelationships` only rewrites the `relationships` field. -/
theorem addChildRelationships_eq_withRel (f : DefForest) :
    ∀ doc : Document, ∃ r, addChildRelationships doc f = { doc with relationships := r } := by
  induction f with
  | nil => intro doc; exact ⟨doc.relationships, rfl⟩
  | cons d c r ihc ihr =>
      intro doc
      rcases hk : kindTys d.kind with _ | ⟨ty, cty⟩
      · simp only [addChildRelationships, hk]
        exact ihr doc
      · simp only [addChildRelationships, hk]
        obtain ⟨r1, h1⟩ := add_relationship_eq_withRel doc cty ⟨ty, d.qualname⟩
        obtain ⟨r2, h2⟩ := ihr (doc.add_relationship cty ⟨ty, d.qualname⟩)
        rw [h2, h1]
        exact ⟨r2, rfl⟩

theorem addChildRelationships_ty (doc : Document) (f : DefForest) :
    (addChildRelationships doc f).ty = doc.ty := by
  obtain ⟨r, h⟩ := addChildRelationships_eq_withRel f doc
  rw [h]

theorem addChildRelationships_id (doc : Document) (f : DefForest) :
    (addChildRelationships doc f).id = doc.id := by
  obtain ⟨r, h⟩ := addChildRelationships_eq_withRel f doc
  rw [h]

theorem addChildRelationships_attributes (doc : Document) (f : DefForest) :
    (addChildRelationships doc f).attributes = doc.attributes := by
  obtain ⟨r, h⟩ := addChildRelationships_eq_withRel f doc
  rw [h]

/-- The document built for one retained node is, up to its relationships, the
record with its display type, the definition's qualified name as id, and the
four attributes. -/
theorem buildNodeDoc_eq (getDef : Nat → Def) (root_qualname ty : String)
    (d : Def) (cs : DefForest) :
    ∃ r, buildNodeDoc getDef root_qualname ty d cs =
      { ty := ty, id := d.qualname,
        attributes := [("name", d.name), ("summary", summary d.docs),
          ("plainSummary", plain_summary d.docs), ("docs", d.docs)],
        relationships := r } := by
  unfold buildNodeDoc
  dsimp only
  by_cases hmod : d.kind = DefKind.mod
  · rw [if_pos hmod]
    rcases hp : d.parent with _ | pid
    · dsimp only
      obtain ⟨r, hr⟩ := addChildRelationships_eq_withRel cs
        ((((((Document.new.setTy ty).setId d.qualname).setAttr "name" d.name).setAttr
          "summary" (summary d.docs)).setAttr
          "plainSummary" (plain_summary d.docs)).setAttr "docs" d.docs)
      rw [hr]
      exact ⟨r, rfl⟩
    · dsimp only
      by_cases hq : (getDef pid).qualname ≠ root_qualname
      · rw [if_pos hq]
        obtain ⟨r1, hr1⟩ := add_singular_relationship_eq_withRel
          ((((((Document.new.setTy ty).setId d.qualname).setAttr "name" d.name).setAttr
            "summary" (summary d.docs)).setAttr
            "plainSummary" (plain_summary d.docs)).setAttr "docs" d.docs)
          "parent" ⟨"module", (getDef pid).qualname⟩
        rw [hr1]
        obtain ⟨r, hr⟩ := addChildRelationships_eq_withRel cs _
        rw [hr]
        exact ⟨r, rfl⟩
      · rw [if_neg hq]
        obtain ⟨r, hr⟩ := addChildRelationships_eq_withRel cs _
        rw [hr]
        exact ⟨r, rfl⟩
  · rw [if_neg hmod]
    obtain ⟨r, hr⟩ := addChildRelationships_eq_withRel cs _
    rw [hr]
    exact ⟨r, rfl⟩

/-- The plural relationship names `create_documentation` can emit. -/
def pluralNames : List String :=
  ["modules", "structs", "enums", "traits", "functions", "types", "statics",
   "consts", "fields"]

theorem kindTys_snd_mem_pluralNames (kind : DefKind) (ty cty : String)
    (h : kindTys kind = some (ty, cty)) : cty ∈ pluralNames := by
  cases kind <;> simp [kindTys] at h <;>
    · obtain ⟨h1, h2⟩ := h
      subst h2
      decide

theorem kindTys_fst_ne_crate (kind : DefKind) (ty cty : String)
    (h : kindTys kind = some (ty, cty)) : ty ≠ "crate" := by
  cases kind <;> simp [kindTys] at h <;>
    · obtain ⟨h1, h2⟩ := h
      subst h1
      decide

/-! ## Observing a document's relationships -/

/-- The inner map recorded at relationship key `k`, if any. -/
def relAt (doc : Document) (k : String) : Option (List (String × VecOrData)) :=
  doc.relationships.bind (fun rels => alFind rels k)

/-- The plural `Data` list recorded at relationship key `k` (empty when the
key is absent or its payload singular). -/
def vecDataAt (doc : Document) (k : String) : List Data :=
  match relAt doc k with
  | some dm =>
      match alFind dm "data" with
      | some (VecOrData.vec v) => v
      | _ => []
  | none => []

/-- The relationship keys present on a document. -/
def relKeys (doc : Document) : List String :=
  (doc.relationships.getD []).map (fun p => p.1)

theorem relAt_add_relationship_ne (doc : Document) (ty k : String) (y : Data)
    (h : k ≠ ty) : relAt (doc.add_relationship ty y) k = relAt doc k := by
  rcases hrels : doc.relationships with _ | rels
  · simp [Document.add_relationship, hrels, relAt, alFind, h, Ne.symm h]
  · rcases hf : alFind rels ty with _ | dm
    · simp [Document.add_relationship, hrels, hf, relAt, alFind_alInsert_ne _ _ _ _ h]
    · simp [Document.add_relationship, hrels, hf, relAt, alFind_alInsert_ne _ _ _ _ h]

theorem relAt_add_relationship_self (doc : Document) (ty : String) (y : Data) :
    relAt (doc.add_relationship ty y) ty = some (
      match relAt doc ty with
      | none => [("data", VecOrData.vec [y])]
      | some dm =>
          match alFind dm "data" with
          | some (VecOrData.vec v) => alInsert dm "data" (VecOrData.vec (v ++ [y]))
          | _ => dm) := by
  rcases hrels : doc.relationships with _ | rels
  · simp [Document.add_relationship, hrels, relAt, alFind]
  · rcases hf : alFind rels ty with _ | dm
    · simp [Document.add_relationship, hrels, hf, relAt, alFind_alInsert_self]
    · simp [Document.add_relationship, hrels, hf, relAt, alFind_alInsert_self]

theorem relAt_add_singular_ne (doc : Document) (ty k : String) (y : Data)
    (h : k ≠ ty) : relAt (doc.add_singular_relationship ty y) k = relAt doc k := by
  rcases hrels : doc.relationships with _ | rels
  · simp [Document.add_singular_relationship, hrels, relAt, alFind, h, Ne.symm h]
  · rcases hf : alFind rels ty with _ | dm
    · simp [Document.add_singular_relationship, hrels, hf, relAt,
        alFind_alInsert_ne _ _ _ _ h]
    · simp [Document.add_singular_relationship, hrels, hf, relAt]

theorem relAt_add_singular_self (doc : Document) (ty : String) (y : Data) :
    relAt (doc.add_singular_relationship ty y) ty = some (
      match relAt doc ty with
      | none => [("data", VecOrData.data y)]
      | some dm => dm) := by
  rcases hrels : doc.relationships with _ | rels
  · simp [Document.add_singular_relationship, hrels, relAt, alFind]
  · rcases hf : alFind rels ty with _ | dm
    · simp [Document.add_singular_relationship, hrels, hf, relAt, alFind_alInsert_self]
    · simp [Document.add_singular_relationship, hrels, hf, relAt]

/-- The relationship key `k` holds a well-formed plural payload (or nothing). -/
def goodVec (doc : Document) (k : String) : Prop :=
  relAt doc k = none ∨ ∃ v, relAt doc k = some [("data", VecOrData.vec v)]

/-- Every key other than the singular `"parent"` holds a well-formed plural
payload (or nothing). -/
def PluralOnly (doc : Document) : Prop :=
  ∀ k, k ≠ "parent" → goodVec doc k

theorem vecDataAt_of_goodVec_add (doc : Document) (ty : String) (y : Data)
    (h : goodVec doc ty) :
    vecDataAt (doc.add_relationship ty y) ty = vecDataAt doc ty ++ [y] := by
  rcases h with h | ⟨v, h⟩
  · simp [vecDataAt, relAt_add_relationship_self, h, alFind]
  · simp [vecDataAt, relAt_add_relationship_self, h, alFind, alInsert]

theorem goodVec_add_relationship (doc : Document) (ty k : String) (y : Data)
    (hk : goodVec doc k) (hty : goodVec doc ty) :
    goodVec (doc.add_relationship ty y) k := by
  by_cases h : k = ty
  · subst h
    rcases hty with h | ⟨v, h⟩
    · right
      exact ⟨[y], by simp [relAt_add_relationship_self, h]⟩
    · right
      exact ⟨v ++ [y], by simp [relAt_add_relationship_self, h, alFind, alInsert]⟩
  · rw [goodVec, relAt_add_relationship_ne _ _ _ _ h]
    exact hk

theorem vecDataAt_add_relationship_sub (doc : Document) (ty k : String) (y x : Data)
    (h : x ∈ vecDataAt (doc.add_relationship ty y) k) :
    x ∈ vecDataAt doc k ∨ (k = ty ∧ x = y) := by
  by_cases hk : k = ty
  · subst hk
    rw [vecDataAt, relAt_add_relationship_self] at h
    rcases hrel : relAt doc k with _ | dm
    · rw [hrel] at h
      simp [alFind] at h
      right
      exact ⟨rfl, h⟩
    · rw [hrel] at h
      dsimp only at h
      rcases hf : alFind dm "data" with _ | vod
      · rw [hf] at h
        simp [vecDataAt, hrel, hf] at h ⊢
      · rcases vod with v | d0
        · rw [hf] at h
          simp only [alFind_alInsert_self] at h
          rw [List.mem_append] at h
          rcases h with h | h
          · left
            simp [vecDataAt, hrel, hf, h]
          · right
            simp only [List.mem_singleton] at h
            exact ⟨rfl, h⟩
        · simp only [hf] at h
          simp at h
  · rw [vecDataAt, relAt_add_relationship_ne _ _ _ _ hk] at h
    left
    rw [vecDataAt]
    exact h

theorem vecDataAt_add_singular_sub (doc : Document) (ty k : String) (y x : Data)
    (h : x ∈ vecDataAt (doc.add_singular_relationship ty y) k) :
    x ∈ vecDataAt doc k := by
  by_cases hk : k = ty
  · subst hk
    rw [vecDataAt, relAt_add_singular_self] at h
    rcases hrel : relAt doc k with _ | dm
    · rw [hrel] at h
      simp [alFind] at h
    · rw [hrel] at h
      rw [vecDataAt, hrel]
      exact h
  · rw [vecDataAt, relAt_add_singular_ne _ _ _ _ hk] at h
    rw [vecDataAt]
    exact h

theorem vecDataAt_of_rels_none (doc : Document) (hrels : doc.relationships = none)
    (k : String) : vecDataAt doc k = [] := by
  simp [vecDataAt, relAt, hrels]

theorem goodVec_of_rels_none (doc : Document) (hrels : doc.relationships = none)
    (k : String) : goodVec doc k := by
  left
  simp [relAt, hrels]

theorem alInsert_keys_sub {α : Type} (m : List (String × α)) (k : String) (v : α) :
    ∀ k', k' ∈ (alInsert m k v).map (fun p => p.1) → k' = k ∨ k' ∈ m.map (fun p => p.1) := by
  induction m with
  | nil => simp [alInsert]
  | cons p rest ih =>
      obtain ⟨k2, v2⟩ := p
      intro k' h
      by_cases hk : k2 = k
      · subst hk
        simp [alInsert] at h
        rcases h with h | h
        · exact .inl h
        · exact .inr (by simp [h])
      · simp [alInsert, hk] at h
        rcases h with h | h
        · exact .inr (by simp [h])
        · rcases ih k' (by simpa using h) with h | h
          · exact .inl h
          · exact .inr (by simp [h])

theorem relKeys_add_relationship (doc : Document) (ty : String) (y : Data) :
    ∀ k, k ∈ relKeys (doc.add_relationship ty y) → k = ty ∨ k ∈ relKeys doc := by
  intro k h
  rcases hrels : doc.relationships with _ | rels
  · simp [Document.add_relationship, hrels, relKeys] at h
    exact .inl h
  · rcases hf : alFind rels ty with _ | dm
    · simp only [Document.add_relationship, hrels, hf, relKeys, Option.getD_some] at h
      rcases alInsert_keys_sub rels ty _ k h with h | h
      · exact .inl h
      · exact .inr (by simp [relKeys, hrels, h])
    · simp only [Document.add_relationship, hrels, hf, relKeys, Option.getD_some] at h
      rcases alInsert_keys_sub rels ty _ k h with h | h
      · exact .inl h
      · exact .inr (by simp [relKeys, hrels, h])

theorem relKeys_add_singular (doc : Document) (ty : String) (y : Data) :
    ∀ k, k ∈ relKeys (doc.add_singular_relationship ty y) → k = ty ∨ k ∈ relKeys doc := by
  intro k h
  rcases hrels : doc.relationships with _ | rels
  · simp [Document.add_singular_relationship, hrels, relKeys] at h
    exact .inl h
  · rcases hf : alFind rels ty with _ | dm
    · simp only [Document.add_singular_relationship, hrels, hf, relKeys,
        Option.getD_some] at h
      rcases alInsert_keys_sub rels ty _ k h with h | h
      · exact .inl h
      · exact .inr (by simp [relKeys, hrels, h])
    · simp only [Document.add_singular_relationship, hrels, hf] at h
      exact .inr h

theorem pluralNames_ne_parent : ∀ s ∈ pluralNames, s ≠ "parent" := by decide

theorem pluralOnly_add_relationship (doc : Document) (ty : String) (y : Data)
    (hp : PluralOnly doc) (hty : ty ≠ "parent") :
    PluralOnly (doc.add_relationship ty y) := fun k hk =>
  goodVec_add_relationship doc ty k y (hp k hk) (hp ty hty)

theorem pluralOnly_addChild (f : DefForest) : ∀ doc, PluralOnly doc →
    PluralOnly (addChildRelationships doc f) := by
  induction f with
  | nil => intro doc h; exact h
  | cons d c r ihc ihr =>
      intro doc h
      rcases hk : kindTys d.kind with _ | ⟨ty, cty⟩
      · simp only [addChildRelationships, hk]
        exact ihr doc h
      · simp only [addChildRelationships, hk]
        exact ihr _ (pluralOnly_add_relationship doc cty _ h
          (pluralNames_ne_parent cty (kindTys_snd_mem_pluralNames _ _ _ hk)))

theorem vecDataAt_addChild_mono (f : DefForest) : ∀ doc (k : String) (x : Data),
    PluralOnly doc → k ≠ "parent" → x ∈ vecDataAt doc k →
    x ∈ vecDataAt (addChildRelationships doc f) k := by
  induction f with
  | nil => intro doc k x _ _ h; exact h
  | cons d c r ihc ihr =>
      intro doc k x hp hk h
      rcases hkind : kindTys d.kind with _ | ⟨ty, cty⟩
      · simp only [addChildRelationships, hkind]
        exact ihr doc k x hp hk h
      · simp only [addChildRelationships, hkind]
        have hcty : cty ≠ "parent" :=
          pluralNames_ne_parent cty (kindTys_snd_mem_pluralNames _ _ _ hkind)
        refine ihr _ k x (pluralOnly_add_relationship doc cty _ hp hcty) hk ?_
        by_cases hkc : k = cty
        · subst hkc
          rw [vecDataAt_of_goodVec_add doc k _ (hp k hk)]
          exact List.mem_append_left _ h
        · rw [vecDataAt, relAt_add_relationship_ne _ _ _ _ hkc]
          exact h

theorem vecDataAt_addChild_mem (f : DefForest) : ∀ doc, PluralOnly doc →
    ∀ (c : Def) (ccs : DefForest) (ty cty : String), (c, ccs) ∈ f.tops →
    kindTys c.kind = some (ty, cty) →
    Data.mk ty c.qualname ∈ vecDataAt (addChildRelationships doc f) cty := by
  induction f with
  | nil => intro doc _ c ccs ty cty h; simp [DefForest.tops] at h
  | cons d0 c0 r0 ihc ihr =>
      intro doc hp c ccs ty cty hmem hk
      simp only [DefForest.tops, List.mem_cons] at hmem
      rcases hmem with heq | hmem
      · obtain ⟨h1, h2⟩ := Prod.mk.inj heq
        subst h1
        simp only [addChildRelationships, hk]
        have hcty : cty ≠ "parent" :=
          pluralNames_ne_parent cty (kindTys_snd_mem_pluralNames _ _ _ hk)
        refine vecDataAt_addChild_mono r0 _ cty _
          (pluralOnly_add_relationship doc cty _ hp hcty) hcty ?_
        rw [vecDataAt_of_goodVec_add doc cty _ (hp cty hcty)]
        exact List.mem_append_right _ (by simp)
      · rcases hkind : kindTys d0.kind with _ | ⟨ty0, cty0⟩
        · simp only [addChildRelationships, hkind]
          exact ihr doc hp c ccs ty cty hmem hk
        · simp only [addChildRelationships, hkind]
          exact ihr _ (pluralOnly_add_relationship doc cty0 _ hp
              (pluralNames_ne_parent cty0 (kindTys_snd_mem_pluralNames _ _ _ hkind)))
            c ccs ty cty hmem hk

theorem vecDataAt_addChild_sub (f : DefForest) : ∀ doc (k : String) (x : Data),
    x ∈ vecDataAt (addChildRelationships doc f) k →
    x ∈ vecDataAt doc k ∨ ∃ (c : Def) (ccs : DefForest) (ty cty : String),
      (c, ccs) ∈ f.tops ∧ kindTys c.kind = some (ty, cty) ∧ k = cty ∧
      x = ⟨ty, c.qualname⟩ := by
  induction f with
  | nil => intro doc k x h; exact .inl h
  | cons d0 c0 r0 ihc ihr =>
      intro doc k x h
      rcases hkind : kindTys d0.kind with _ | ⟨ty0, cty0⟩
      · rw [addChildRelationships, hkind] at h
        rcases ihr doc k x h with h | ⟨c, ccs, ty, cty, hm, hk, hkc, hxc⟩
        · exact .inl h
        · exact .inr ⟨c, ccs, ty, cty, by simp [DefForest.tops, hm], hk, hkc, hxc⟩
      · rw [addChildRelationships, hkind] at h
        rcases ihr _ k x h with h | ⟨c, ccs, ty, cty, hm, hk, hkc, hxc⟩
        · rcases vecDataAt_add_relationship_sub doc cty0 k _ x h with h | ⟨hkc, hxc⟩
          · exact .inl h
          · exact .inr ⟨d0, c0, ty0, cty0, by simp [DefForest.tops], hkind, hkc, hxc⟩
        · exact .inr ⟨c, ccs, ty, cty, by simp [DefForest.tops, hm], hk, hkc, hxc⟩

theorem relKeys_addChild_sub (f : DefForest) : ∀ doc (k : String),
    k ∈ relKeys (addChildRelationships doc f) → k ∈ relKeys doc ∨ k ∈ pluralNames := by
  induction f with
  | nil => intro doc k h; exact .inl h
  | cons d0 c0 r0 ihc ihr =>
      intro doc k h
      rcases hkind : kindTys d0.kind with _ | ⟨ty0, cty0⟩
      · rw [addChildRelationships, hkind] at h
        exact ihr doc k h
      · rw [addChildRelationships, hkind] at h
        rcases ihr _ k h with h | h
        · rcases relKeys_add_relationship doc cty0 _ k h with rfl | h
          · exact .inr (kindTys_snd_mem_pluralNames _ _ _ hkind)
          · exact .inl h
        · exact .inr h

/-- `buildNodeDoc` is `addChildRelationships` applied to a document whose
relationships are empty except possibly the singular `"parent"` entry. -/
theorem buildNodeDoc_as_addChild (getDef : Nat → Def) (root_qualname ty : String)
    (d : Def) (cs : DefForest) :
    ∃ mid : Document, buildNodeDoc getDef root_qualname ty d cs =
        addChildRelationships mid cs ∧
      PluralOnly mid ∧ (∀ k, vecDataAt mid k = []) ∧
      (∀ k, k ∈ relKeys mid → k = "parent") := by
  have hbase : ∀ (doc : Document), doc.relationships = none →
      PluralOnly doc ∧ (∀ k, vecDataAt doc k = []) ∧
      (∀ k, k ∈ relKeys doc → k = "parent") := by
    intro doc h
    refine ⟨fun k _ => goodVec_of_rels_none doc h k,
      fun k => vecDataAt_of_rels_none doc h k, fun k hk => ?_⟩
    simp [relKeys, h] at hk
  have hsing : ∀ (doc : Document) (y : Data), doc.relationships = none →
      PluralOnly (doc.add_singular_relationship "parent" y) ∧
      (∀ k, vecDataAt (doc.add_singular_relationship "parent" y) k = []) ∧
      (∀ k, k ∈ relKeys (doc.add_singular_relationship "parent" y) → k = "parent") := by
    intro doc y h
    have hrelnone : relAt doc "parent" = none := by simp [relAt, h]
    refine ⟨fun k hk => ?_, fun k => ?_, fun k hk => ?_⟩
    · left
      rw [relAt_add_singular_ne _ _ _ _ hk]
      simp [relAt, h]
    · by_cases hk : k = "parent"
      · subst hk
        rw [vecDataAt, relAt_add_singular_self, hrelnone]
        simp [alFind]
      · rw [vecDataAt, relAt_add_singular_ne _ _ _ _ hk]
        simp [relAt, h]
    · rcases relKeys_add_singular doc "parent" y k hk with h2 | h2
      · exact h2
      · simp [relKeys, h] at h2
  unfold buildNodeDoc
  dsimp only
  by_cases hmod : d.kind = DefKind.mod
  · rw [if_pos hmod]
    rcases hp : d.parent with _ | pid
    · dsimp only
      exact ⟨_, rfl, hbase _ rfl⟩
    · dsimp only
      by_cases hq : (getDef pid).qualname ≠ root_qualname
      · rw [if_pos hq]
        exact ⟨_, rfl, hsing _ _ rfl⟩
      · rw [if_neg hq]
        exact ⟨_, rfl, hbase _ rfl⟩
  · rw [if_neg hmod]
    exact ⟨_, rfl, hbase _ rfl⟩

theorem buildNodeDoc_relKeys (getDef : Nat → Def) (root_qualname ty : String)
    (d : Def) (cs : DefForest) (k : String)
    (h : k ∈ relKeys (buildNodeDoc getDef root_qualname ty d cs)) :
    k = "parent" ∨ k ∈ pluralNames := by
  obtain ⟨mid, heq, _, _, hkeys⟩ := buildNodeDoc_as_addChild getDef root_qualname ty d cs
  rw [heq] at h
  rcases relKeys_addChild_sub cs mid k h with h | h
  · exact .inl (hkeys k h)
  · exact .inr h

theorem buildNodeDoc_vecData_sub (getDef : Nat → Def) (root_qualname ty : String)
    (d : Def) (cs : DefForest) (k : String) (x : Data)
    (h : x ∈ vecDataAt (buildNodeDoc getDef root_qualname ty d cs) k) :
    ∃ (c : Def) (ccs : DefForest) (cty ccty : String),
      (c, ccs) ∈ cs.tops ∧ kindTys c.kind = some (cty, ccty) ∧ k = ccty ∧
      x = ⟨cty, c.qualname⟩ := by
  obtain ⟨mid, heq, _, hvec, _⟩ := buildNodeDoc_as_addChild getDef root_qualname ty d cs
  rw [heq] at h
  rcases vecDataAt_addChild_sub cs mid k x h with h | h
  · rw [hvec k] at h
    simp at h
  · exact h

theorem buildNodeDoc_vec_mem (getDef : Nat → Def) (root_qualname ty : String)
    (d : Def) (cs : DefForest) (c : Def) (ccs : DefForest) (cty ccty : String)
    (hmem : (c, ccs) ∈ cs.tops) (hk : kindTys c.kind = some (cty, ccty)) :
    Data.mk cty c.qualname ∈
      vecDataAt (buildNodeDoc getDef root_qualname ty d cs) ccty := by
  obtain ⟨mid, heq, hpl, _, _⟩ := buildNodeDoc_as_addChild getDef root_qualname ty d cs
  rw [heq]
  exact vecDataAt_addChild_mem cs mid hpl c ccs cty ccty hmem hk

/-! ## Characterizing the output of `create_documentation` -/

/-- The document ids `processQueue` emits are the qualified names of the
retained popped definitions, in order. -/
theorem filterMap_nodeDocOf_ids (getDef : Nat → Def) (rq : String) :
    ∀ l : List (Def × DefForest),
    (l.filterMap (nodeDocOf getDef rq)).map (fun doc => doc.id) =
      (l.filter (fun p => (kindTys p.1.kind).isSome)).map (fun p => p.1.qualname) := by
  intro l
  induction l with
  | nil => rfl
  | cons p rest ih =>
      rcases hk : kindTys p.1.kind with _ | ⟨ty, cty⟩
      · simp [List.filterMap_cons, List.filter_cons, nodeDocOf, hk, ih]
      · obtain ⟨r, hr⟩ := buildNodeDoc_eq getDef rq ty p.1 p.2
        simp [List.filterMap_cons, List.filter_cons, nodeDocOf, hk, ih, hr]

/-- Every document `processQueue` emits is the node document of some retained
popped definition. -/
theorem mem_filterMap_nodeDocOf (getDef : Nat → Def) (rq : String)
    (l : List (Def × DefForest)) (doc : Document)
    (h : doc ∈ l.filterMap (nodeDocOf getDef rq)) :
    ∃ p ∈ l, ∃ ty cty, kindTys p.1.kind = some (ty, cty) ∧
      doc = buildNodeDoc getDef rq ty p.1 p.2 := by
  rw [List.mem_filterMap] at h
  obtain ⟨p, hp, hnd⟩ := h
  unfold nodeDocOf at hnd
  rcases hk : kindTys p.1.kind with _ | ⟨ty, cty⟩
  · rw [hk] at hnd
    simp at hnd
  · rw [hk] at hnd
    simp at hnd
    exact ⟨p, hp, ty, cty, hk, hnd.symm⟩

/-- The retained node documents all occur in `processQueue`'s output. -/
theorem filterMap_nodeDocOf_mem (getDef : Nat → Def) (rq : String)
    (l : List (Def × DefForest)) (p : Def × DefForest) (ty cty : String)
    (hp : p ∈ l) (hk : kindTys p.1.kind = some (ty, cty)) :
    buildNodeDoc getDef rq ty p.1 p.2 ∈ l.filterMap (nodeDocOf getDef rq) := by
  rw [List.mem_filterMap]
  exact ⟨p, hp, by simp [nodeDocOf, hk]⟩

/-- The crate document before its child relationships are attached. -/
def crateBaseDoc (crate_name : String) (root_def : Def) : Document :=
  (((Document.new.setTy "crate").setId crate_name).setAttr
    "summary" (plain_summary root_def.docs)).setAttr "docs" root_def.docs

/-- Unfolding `create_documentation` once the root is resolved. -/
theorem create_documentation_eq (host : AnalysisHost) (crate_name : String)
    (root : CrateRoot)
    (hroot : host.roots.find? (fun r => r.name = crate_name) = some root) :
    create_documentation host crate_name = .ok
      { data := some (addChildRelationships (crateBaseDoc crate_name root.root)
          root.children),
        included := some ((bfsNodes root.children.size root.children).filterMap
          (nodeDocOf host.getDef root.root.qualname)) } := by
  rw [create_documentation, hroot]
  dsimp only
  rw [processQueue_eq_filterMap]
  rfl

theorem crateBaseDoc_rels (crate_name : String) (root_def : Def) :
    (crateBaseDoc crate_name root_def).relationships = none := rfl

theorem crateBaseDoc_eq (crate_name : String) (root_def : Def) :
    crateBaseDoc crate_name root_def =
      { ty := "crate", id := crate_name,
        attributes := [("summary", plain_summary root_def.docs),
          ("docs", root_def.docs)],
        relationships := none } := rfl

/-! ## Claim C1 — uniqueness of documents -/

/-- C1: for every tree-shaped Definition input whose root resolves, with
distinct ids and (per the data model's Definition invariant, since a
Document's id is the definition's qualified name) distinct qualified names,
`create_documentation` produces exactly one root Document of type `"crate"`
and exactly one Document per retained Definition; no id appears twice in the
included list, and the root Document (the only one of type `"crate"`) never
appears inside `included`. -/
theorem create_documentation_unique_documents (host : AnalysisHost)
    (crate_name : String) (root : CrateRoot)
    (hroot : host.roots.find? (fun r => r.name = crate_name) = some root)
    (hids : ((root.children.allNodes).map (fun p => p.1.id)).Nodup)
    (hquals : ((root.children.allNodes).map (fun p => p.1.qualname)).Nodup) :
    ∃ (cdoc : Document) (included : List Document),
      create_documentation host crate_name =
        .ok { data := some cdoc, included := some included } ∧
      cdoc.ty = "crate" ∧
      (∀ doc ∈ included, doc.ty ≠ "crate") ∧
      (included.map (fun doc => doc.id)).Nodup ∧
      (∀ p ∈ root.children.allNodes, (kindTys p.1.kind).isSome = true →
        (included.map (fun doc => doc.id)).count p.1.qualname = 1) ∧
      included.length =
        (root.children.allNodes.filter
          (fun p => (kindTys p.1.kind).isSome)).length := by
  have hperm := bfsNodes_perm root.children.size root.children (le_refl _)
  have hnodup : (((bfsNodes root.children.size root.children).filter
      (fun p => (kindTys p.1.kind).isSome)).map
        (fun p : Def × DefForest => p.1.qualname)).Nodup := by
    have hsubl : List.Sublist
        (((bfsNodes root.children.size root.children).filter
          (fun p => (kindTys p.1.kind).isSome)).map
            (fun p : Def × DefForest => p.1.qualname))
        ((bfsNodes root.children.size root.children).map
          (fun p : Def × DefForest => p.1.qualname)) :=
      List.Sublist.map _ (List.filter_sublist _)
    exact hsubl.nodup
      (((hperm.map (fun p : Def × DefForest => p.1.qualname)).nodup_iff).mpr hquals)
  refine ⟨_, _, create_documentation_eq host crate_name root hroot, ?_, ?_, ?_, ?_, ?_⟩
  · rw [addChildRelationships_ty, crateBaseDoc_eq]
  · intro doc hdoc
    obtain ⟨p, hp, ty, cty, hk, rfl⟩ := mem_filterMap_nodeDocOf _ _ _ doc hdoc
    obtain ⟨r, hr⟩ := buildNodeDoc_eq host.getDef root.root.qualname ty p.1 p.2
    rw [hr]
    exact kindTys_fst_ne_crate _ _ _ hk
  · rw [filterMap_nodeDocOf_ids]
    exact hnodup
  · intro p hp hk
    rw [filterMap_nodeDocOf_ids]
    refine List.count_eq_one_of_mem hnodup ?_
    rw [List.mem_map]
    refine ⟨p, ?_, rfl⟩
    rw [List.mem_filter]
    exact ⟨(hperm.mem_iff).mpr hp, hk⟩
  · have h1 := filterMap_nodeDocOf_ids host.getDef root.root.qualname
      (bfsNodes root.children.size root.children)
    have h2 := congrArg List.length h1
    rw [List.length_map, List.length_map] at h2
    rw [h2]
    exact (hperm.filter (fun p => (kindTys p.1.kind).isSome)).length_eq

/-- Fixture: a crate `pkg` whose tree is `pkg` → `pkg::m1` → `pkg::m1::m2`,
all modules. -/
def pkgRootDef : Def :=
  { id := 0, kind := DefKind.mod, qualname := "pkg", name := "pkg", docs := "",
    parent := none }

def m1Def : Def :=
  { id := 1, kind := DefKind.mod, qualname := "pkg::m1", name := "m1", docs := "",
    parent := some 0 }

def m2Def : Def :=
  { id := 2, kind := DefKind.mod, qualname := "pkg::m1::m2", name := "m2", docs := "",
    parent := some 1 }

def nestedRoot : CrateRoot :=
  { name := "pkg", root := pkgRootDef,
    children := DefForest.cons m1Def (DefForest.cons m2Def .nil .nil) .nil }

def nestedHost : AnalysisHost :=
  { roots := [nestedRoot],
    getDef := fun id => if id = 0 then pkgRootDef else if id = 1 then m1Def else m2Def }

/-- Witness for C1 at the `pkg` → `pkg::m1` → `pkg::m1::m2` fixture. -/
theorem create_documentation_unique_documents_witness :
    ∃ (cdoc : Document) (included : List Document),
      create_documentation nestedHost "pkg" =
        .ok { data := some cdoc, included := some included } ∧
      cdoc.ty = "crate" ∧
      (∀ doc ∈ included, doc.ty ≠ "crate") ∧
      (included.map (fun doc => doc.id)).Nodup ∧
      (∀ p ∈ nestedRoot.children.allNodes, (kindTys p.1.kind).isSome = true →
        (included.map (fun doc => doc.id)).count p.1.qualname = 1) ∧
      included.length =
        (nestedRoot.children.allNodes.filter
          (fun p => (kindTys p.1.kind).isSome)).length :=
  create_documentation_unique_documents nestedHost "pkg" nestedRoot rfl
    (by decide) (by decide)

/-! ## Claim C9 — tuples and locals are dropped -/

/-- C9: for every Definition of kind tuple or local in the input tree (a kind
without a display type), the builder produces no Document in `data` or
`included` with its qualified name, and no plural (parent-side) relationship
entry on any produced Document references it. -/
theorem create_documentation_drop_invariant (host : AnalysisHost)
    (crate_name : String) (root : CrateRoot)
    (hroot : host.roots.find? (fun r => r.name = crate_name) = some root)
    (hquals : ((root.children.allNodes).map (fun p => p.1.qualname)).Nodup)
    (p : Def × DefForest) (hp : p ∈ root.children.allNodes)
    (hk : kindTys p.1.kind = none) :
    ∃ (cdoc : Document) (included : List Document),
      create_documentation host crate_name =
        .ok { data := some cdoc, included := some included } ∧
      (∀ doc ∈ included, doc.id ≠ p.1.qualname) ∧
      (∀ doc, doc = cdoc ∨ doc ∈ included → ∀ (k : String) (x : Data),
        x ∈ vecDataAt doc k → x.id ≠ p.1.qualname) := by
  have hperm := bfsNodes_perm root.children.size root.children (le_refl _)
  have hinj := List.inj_on_of_nodup_map hquals
  have hne : ∀ (c : Def × DefForest), c ∈ root.children.allNodes →
      (kindTys c.1.kind).isSome = true → c.1.qualname ≠ p.1.qualname := by
    intro c hc hck heq
    have hcp := hinj hc hp heq
    rw [hcp, hk] at hck
    simp at hck
  refine ⟨_, _, create_documentation_eq host crate_name root hroot, ?_, ?_⟩
  · intro doc hdoc
    obtain ⟨q, hq, ty, cty, hqk, rfl⟩ := mem_filterMap_nodeDocOf _ _ _ doc hdoc
    obtain ⟨r, hr⟩ := buildNodeDoc_eq host.getDef root.root.qualname ty q.1 q.2
    rw [hr]
    exact hne q ((hperm.mem_iff).mp hq) (by simp [hqk])
  · rintro doc (rfl | hdoc) k x hx
    · rcases vecDataAt_addChild_sub root.children _ k x hx with hx |
        ⟨c, ccs, ty, cty, hm, hck, hkc, hxc⟩
      · rw [vecDataAt_of_rels_none _ (crateBaseDoc_rels _ _)] at hx
        simp at hx
      · subst hxc
        exact hne (c, ccs) (DefForest.tops_subset_allNodes _ hm) (by simp [hck])
    · obtain ⟨q, hq, ty, cty, hqk, rfl⟩ := mem_filterMap_nodeDocOf _ _ _ doc hdoc
      obtain ⟨c, ccs, cty2, ccty2, hm, hck, hkc, hxc⟩ :=
        buildNodeDoc_vecData_sub _ _ _ _ _ k x hx
      subst hxc
      have hcmem : (c, ccs) ∈ root.children.allNodes :=
        DefForest.allNodes_trans root.children q.1 q.2 ((hperm.mem_iff).mp hq)
          (DefForest.tops_subset_allNodes _ hm)
      exact hne (c, ccs) hcmem (by simp [hck])

/-- Fixture: a crate `pkg2` with a struct child and a tuple child. -/
def pkg2RootDef : Def :=
  { id := 0, kind := DefKind.mod, qualname := "pkg2", name := "pkg2", docs := "",
    parent := none }

def s1Def : Def :=
  { id := 1, kind := DefKind.struct, qualname := "pkg2::s1", name := "s1", docs := "",
    parent := some 0 }

def tupleDef : Def :=
  { id := 2, kind := DefKind.tuple, qualname := "pkg2::t", name := "t", docs := "",
    parent := some 0 }

def tupleRoot : CrateRoot :=
  { name := "pkg2", root := pkg2RootDef,
    children := DefForest.cons s1Def .nil (DefForest.cons tupleDef .nil .nil) }

def tupleHost : AnalysisHost :=
  { roots := [tupleRoot],
    getDef := fun id => if id = 0 then pkg2RootDef else if id = 1 then s1Def else tupleDef }

/-- Witness for C9 at a crate with a struct child and a tuple child: the
tuple gets no document and no plural relationship entry references it. -/
theorem create_documentation_drop_invariant_witness :
    ∃ (cdoc : Document) (included : List Document),
      create_documentation tupleHost "pkg2" =
        .ok { data := some cdoc, included := some included } ∧
      (∀ doc ∈ included, doc.id ≠ (tupleDef, DefForest.nil).1.qualname) ∧
      (∀ doc, doc = cdoc ∨ doc ∈ included → ∀ (k : String) (x : Data),
        x ∈ vecDataAt doc k → x.id ≠ (tupleDef, DefForest.nil).1.qualname) :=
  create_documentation_drop_invariant tupleHost "pkg2" tupleRoot rfl (by decide)
    (tupleDef, DefForest.nil) (by decide) rfl

/-! ## Claim C2 — relationship keys carry no `child_` prefix -/

/-- C2 counterexample: in the `pkg` → `pkg::m1` → `pkg::m1::m2` fixture, the
non-root parent `pkg::m1` records its child module under the key
`"modules"` — not `"child_modules"`, which appears nowhere. -/
theorem child_prefix_counterexample :
    ((create_documentation nestedHost "pkg").toOption.bind
        (fun docn => docn.included)).map
      (fun incl => incl.map (fun doc =>
        (doc.id, vecDataAt doc "modules", relAt doc "child_modules"))) =
    some [("pkg::m1", [Data.mk "module" "pkg::m1::m2"], none),
          ("pkg::m1::m2", [], none)] := by rfl

theorem no_child_prefix_of_key (s : String) (h : s ∈ pluralNames ∨ s = "parent") :
    "child_".toList.isPrefixOf s.toList = false := by
  rcases h with h | rfl
  · simp [pluralNames] at h
    rcases h with rfl | rfl | rfl | rfl | rfl | rfl | rfl | rfl | rfl <;> decide
  · decide

/-- C2 as amended: every relationship key produced by the builder — on the
root Document and on non-root parents alike — is one of the unprefixed plural
names (`"modules"`, `"structs"`, …) or the singular `"parent"`; no key carries
a `"child_"` prefix.  Every retained child of a retained non-root parent is
recorded on that parent's Document under the same unprefixed plural key the
root uses for that kind, and the root's retained children are recorded on the
root Document under those keys. -/
theorem relationship_keys_unprefixed (host : AnalysisHost) (crate_name : String)
    (root : CrateRoot)
    (hroot : host.roots.find? (fun r => r.name = crate_name) = some root) :
    ∃ (cdoc : Document) (included : List Document),
      create_documentation host crate_name =
        .ok { data := some cdoc, included := some included } ∧
      (∀ doc, doc = cdoc ∨ doc ∈ included → ∀ k ∈ relKeys doc,
        (k ∈ pluralNames ∨ k = "parent") ∧
        "child_".toList.isPrefixOf k.toList = false) ∧
      (∀ (q : Def × DefForest), q ∈ root.children.allNodes →
        ∀ ty cty, kindTys q.1.kind = some (ty, cty) →
        ∀ (c : Def) (ccs : DefForest) (cty2 ccty2 : String), (c, ccs) ∈ q.2.tops →
          kindTys c.kind = some (cty2, ccty2) →
          buildNodeDoc host.getDef root.root.qualname ty q.1 q.2 ∈ included ∧
          (buildNodeDoc host.getDef root.root.qualname ty q.1 q.2).id = q.1.qualname ∧
          Data.mk cty2 c.qualname ∈
            vecDataAt (buildNodeDoc host.getDef root.root.qualname ty q.1 q.2) ccty2 ∧
          ccty2 ∈ pluralNames) ∧
      (∀ (c : Def) (ccs : DefForest) (cty ccty : String),
        (c, ccs) ∈ root.children.tops → kindTys c.kind = some (cty, ccty) →
        Data.mk cty c.qualname ∈ vecDataAt cdoc ccty) := by
  have hperm := bfsNodes_perm root.children.size root.children (le_refl _)
  refine ⟨_, _, create_documentation_eq host crate_name root hroot, ?_, ?_, ?_⟩
  · rintro doc (rfl | hdoc) k hk
    · have hsub := relKeys_addChild_sub root.children (crateBaseDoc crate_name root.root) k hk
      rcases hsub with h | h
      · simp [relKeys, crateBaseDoc_rels] at h
      · exact ⟨.inl h, no_child_prefix_of_key k (.inl h)⟩
    · obtain ⟨q, hq, ty, cty, hqk, rfl⟩ := mem_filterMap_nodeDocOf _ _ _ doc hdoc
      rcases buildNodeDoc_relKeys _ _ _ _ _ k hk with h | h
      · exact ⟨.inr h, no_child_prefix_of_key k (.inr h)⟩
      · exact ⟨.inl h, no_child_prefix_of_key k (.inl h)⟩
  · intro q hq ty cty hqk c ccs cty2 ccty2 hcm hck
    obtain ⟨r, hr⟩ := buildNodeDoc_eq host.getDef root.root.qualname ty q.1 q.2
    refine ⟨filterMap_nodeDocOf_mem _ _ _ q ty cty ((hperm.mem_iff).mpr hq) hqk,
      by rw [hr], ?_, kindTys_snd_mem_pluralNames _ _ _ hck⟩
    exact buildNodeDoc_vec_mem _ _ _ _ _ c ccs cty2 ccty2 hcm hck
  · intro c ccs cty ccty hcm hck
    exact vecDataAt_addChild_mem root.children _
      (fun k _ => goodVec_of_rels_none _ (crateBaseDoc_rels _ _) k) c ccs cty ccty hcm hck

/-- Witness for C2 (amended) at the `pkg` → `pkg::m1` → `pkg::m1::m2`
fixture. -/
theorem relationship_keys_unprefixed_witness :
    ∃ (cdoc : Document) (included : List Document),
      create_documentation nestedHost "pkg" =
        .ok { data := some cdoc, included := some included } ∧
      (∀ doc, doc = cdoc ∨ doc ∈ included → ∀ k ∈ relKeys doc,
        (k ∈ pluralNames ∨ k = "parent") ∧
        "child_".toList.isPrefixOf k.toList = false) ∧
      (∀ (q : Def × DefForest), q ∈ nestedRoot.children.allNodes →
        ∀ ty cty, kindTys q.1.kind = some (ty, cty) →
        ∀ (c : Def) (ccs : DefForest) (cty2 ccty2 : String), (c, ccs) ∈ q.2.tops →
          kindTys c.kind = some (cty2, ccty2) →
          buildNodeDoc nestedHost.getDef nestedRoot.root.qualname ty q.1 q.2 ∈ included ∧
          (buildNodeDoc nestedHost.getDef nestedRoot.root.qualname ty q.1 q.2).id =
            q.1.qualname ∧
          Data.mk cty2 c.qualname ∈
            vecDataAt (buildNodeDoc nestedHost.getDef nestedRoot.root.qualname ty q.1 q.2)
              ccty2 ∧
          ccty2 ∈ pluralNames) ∧
      (∀ (c : Def) (ccs : DefForest) (cty ccty : String),
        (c, ccs) ∈ nestedRoot.children.tops → kindTys c.kind = some (cty, ccty) →
        Data.mk cty c.qualname ∈ vecDataAt cdoc ccty) :=
  relationship_keys_unprefixed nestedHost "pkg" nestedRoot rfl

/-! ## Claim C7 — the summary attribute -/

/-- Fixture: a crate `pkg` whose root documentation is the heading
`"# Heading"`. -/
def headingRootDef : Def :=
  { id := 0, kind := DefKind.mod, qualname := "pkg", name := "pkg",
    docs := "# Heading", parent := none }

def headingRoot : CrateRoot :=
  { name := "pkg", root := headingRootDef, children := .nil }

def headingHost : AnalysisHost :=
  { roots := [headingRoot], getDef := fun _ => headingRootDef }

/-- C7 counterexample: for a root crate Document whose doc text is
`"# Heading"` (no blank line, so its first paragraph is the whole string),
the `"summary"` attribute is the rendered plain text `"Heading"`, not the
first paragraph `"# Heading"` with formatting intact. -/
theorem root_summary_counterexample :
    ((create_documentation headingHost "pkg").toOption.bind
        (fun docn => docn.data)).map
      (fun doc => alFind doc.attributes "summary") = some (some "Heading") ∧
    summary "# Heading" = "# Heading" ∧
    ("Heading" : String) ≠ "# Heading" := by
  refine ⟨by decide, by decide, by decide⟩

/-- C7 as amended: every non-root Document's `"summary"` attribute is the
first paragraph of its doc text with formatting intact (`summary`), but the
root crate Document's `"summary"` attribute is instead the rendered plain
text of the first paragraph (`plain_summary`); the root also carries no
`"plainSummary"` or `"name"` attribute. -/
theorem summary_attribute_assignment (host : AnalysisHost) (crate_name : String)
    (root : CrateRoot)
    (hroot : host.roots.find? (fun r => r.name = crate_name) = some root) :
    ∃ (cdoc : Document) (included : List Document),
      create_documentation host crate_name =
        .ok { data := some cdoc, included := some included } ∧
      cdoc.attributes = [("summary", plain_summary root.root.docs),
        ("docs", root.root.docs)] ∧
      (∀ doc ∈ included, ∃ q ∈ root.children.allNodes,
        doc.id = q.1.qualname ∧
        alFind doc.attributes "summary" = some (summary q.1.docs)) := by
  have hperm := bfsNodes_perm root.children.size root.children (le_refl _)
  refine ⟨_, _, create_documentation_eq host crate_name root hroot, ?_, ?_⟩
  · rw [addChildRelationships_attributes, crateBaseDoc_eq]
  · intro doc hdoc
    obtain ⟨q, hq, ty, cty, hqk, rfl⟩ := mem_filterMap_nodeDocOf _ _ _ doc hdoc
    obtain ⟨r, hr⟩ := buildNodeDoc_eq host.getDef root.root.qualname ty q.1 q.2
    refine ⟨q, (hperm.mem_iff).mp hq, by rw [hr], ?_⟩
    rw [hr]
    simp [alFind]

/-- Witness for C7 (amended) at the `pkg` → `pkg::m1` → `pkg::m1::m2`
fixture. -/
theorem summary_attribute_assignment_witness :
    ∃ (cdoc : Document) (included : List Document),
      create_documentation tupleHost "pkg2" =
        .ok { data := some cdoc, included := some included } ∧
      cdoc.attributes = [("summary", plain_summary tupleRoot.root.docs),
        ("docs", tupleRoot.root.docs)] ∧
      (∀ doc ∈ included, ∃ q ∈ tupleRoot.children.allNodes,
        doc.id = q.1.qualname ∧
        alFind doc.attributes "summary" = some (summary q.1.docs)) :=
  summary_attribute_assignment tupleHost "pkg2" tupleRoot rfl

end Rustdoc
